import Mathlib

/-!
Verification of the zynk LSM + CRDT engine (shallow embedding).

Keys, values and file payloads are byte sequences, modelled as `List Nat`.
Rust `BTreeMap`s are modelled as key-sorted association lists; machine
integers are `Nat` with an explicit `% 2^64` (resp. `% 2^32`) wherever the
source can wrap.  Disk I/O is crash-free in this model: an SSTable is the
list of records the flush wrote (the block/CRC layer of the builder and
reader is collapsed, since a table is always read back exactly as written
and a key's record, if present, lies in the unique block the index lookup
returns), and the manifest is the list of `add`/`remove` lines appended.
-/

namespace Zynk

/-! ## Byte strings -/

/-- A byte string (Rust `Vec<u8>` / `&[u8]`). -/
abbrev Bytes := List Nat

/-- Strict lexicographic order on byte strings, as Rust compares byte
slices: pointwise by unsigned value, a proper prefix sorting first. -/
def bytesLt : Bytes → Bytes → Bool
  | [], [] => false
  | [], _ :: _ => true
  | _ :: _, [] => false
  | a :: as, b :: bs =>
    if a < b then true
    else if b < a then false
    else bytesLt as bs

theorem bytesLt_irrefl (x : Bytes) : bytesLt x x = false := by
  induction x with
  | nil => rfl
  | cons a as ih => simp [bytesLt, ih]

theorem bytesLt_trans {x y z : Bytes} (hxy : bytesLt x y = true)
    (hyz : bytesLt y z = true) : bytesLt x z = true := by
  induction x generalizing y z with
  | nil =>
    cases y with
    | nil => simp [bytesLt] at hxy
    | cons b bs =>
      cases z with
      | nil => simp [bytesLt] at hyz
      | cons c cs => simp [bytesLt]
  | cons a as ih =>
    cases y with
    | nil => simp [bytesLt] at hxy
    | cons b bs =>
      cases z with
      | nil => simp [bytesLt] at hyz
      | cons c cs =>
        simp only [bytesLt] at hxy hyz ⊢
        rcases Nat.lt_trichotomy a b with hab | hab | hab
        · rcases Nat.lt_trichotomy b c with hbc | hbc | hbc
          · simp [Nat.lt_trans hab hbc]
          · subst hbc
            simp [hab]
          · simp [Nat.lt_asymm hbc, hbc] at hyz
        · subst hab
          simp only [Nat.lt_irrefl, if_false] at hxy
          rcases Nat.lt_trichotomy a c with hac | hac | hac
          · simp [hac]
          · subst hac
            simp only [Nat.lt_irrefl, if_false] at hyz ⊢
            exact ih hxy hyz
          · simp [Nat.lt_asymm hac, hac] at hyz
        · simp [Nat.lt_asymm hab, hab] at hxy

theorem bytesLt_trichotomy (x y : Bytes) :
    bytesLt x y = true ∨ x = y ∨ bytesLt y x = true := by
  induction x generalizing y with
  | nil =>
    cases y with
    | nil => right; left; rfl
    | cons b bs => left; rfl
  | cons a as ih =>
    cases y with
    | nil => right; right; rfl
    | cons b bs =>
      rcases Nat.lt_trichotomy a b with hab | hab | hab
      · left; simp [bytesLt, hab]
      · subst hab
        rcases ih bs with h | h | h
        · left; simp [bytesLt, h]
        · right; left; rw [h]
        · right; right; simp [bytesLt, h]
      · right; right; simp [bytesLt, hab]

theorem bytesLt_asymm {x y : Bytes} (h : bytesLt x y = true) :
    bytesLt y x = false := by
  by_contra hc
  have h' : bytesLt y x = true := by
    cases hxy : bytesLt y x
    · exact absurd hxy hc
    · rfl
  have := bytesLt_trans h h'
  rw [bytesLt_irrefl] at this
  exact Bool.noConfusion this

theorem bytesLt_ne {x y : Bytes} (h : bytesLt x y = true) : x ≠ y := by
  intro he
  subst he
  rw [bytesLt_irrefl] at h
  exact Bool.noConfusion h

/-! ## Memtable (src/storage/memtable/table.rs) -/

/-- A memtable record: `Put(value)` or a `Delete` tombstone. -/
inductive Entry
  | put (v : Bytes)
  | delete
deriving DecidableEq

/-- `BTreeMap::get` on a key-sorted association list. -/
def mapLookup : List (Bytes × Entry) → Bytes → Option Entry
  | [], _ => none
  | (k', e) :: rest, k => if k = k' then some e else mapLookup rest k

/-- `BTreeMap::insert` on a key-sorted association list (replace the
binding if the key is present, otherwise insert at the ordered position). -/
def mapInsert : List (Bytes × Entry) → Bytes → Entry → List (Bytes × Entry)
  | [], k, e => [(k, e)]
  | (k', e') :: rest, k, e =>
    if k = k' then (k, e) :: rest
    else if bytesLt k k' then (k, e) :: (k', e') :: rest
    else (k', e') :: mapInsert rest k e

/-- In-memory ordered write buffer with a running byte-usage counter. -/
structure MemTable where
  map : List (Bytes × Entry)
  bytesUsed : Nat
  maxBytes : Nat
deriving DecidableEq

def MemTable.new (maxBytes : Nat) : MemTable := ⟨[], 0, maxBytes⟩

def MemTable.get (m : MemTable) (k : Bytes) : Option Entry := mapLookup m.map k

def MemTable.isEmpty (m : MemTable) : Bool := m.map.isEmpty

/-- `bytes_used >= max_bytes`. -/
def MemTable.overThreshold (m : MemTable) : Bool := decide (m.maxBytes ≤ m.bytesUsed)

/-- Byte cost of one stored entry: tag + two length prefixes + key
(+ value for a Put); a Delete contributes 0 for the value length. -/
def entryCost (k : Bytes) : Entry → Nat
  | .put v => 1 + 4 + 4 + k.length + v.length
  | .delete => 1 + 4 + 4 + k.length

/-- `adjust_remove`: subtract (saturating) the cost of the entry about to
be overwritten, if any. -/
def MemTable.adjustRemove (m : MemTable) (k : Bytes) : MemTable :=
  match mapLookup m.map k with
  | some prev => { m with bytesUsed := m.bytesUsed - entryCost k prev }
  | none => m

def MemTable.put (m : MemTable) (k v : Bytes) : MemTable :=
  let m' := m.adjustRemove k
  { m' with
    bytesUsed := m'.bytesUsed + (1 + 4 + 4 + k.length + v.length),
    map := mapInsert m'.map k (.put v) }

def MemTable.delete (m : MemTable) (k : Bytes) : MemTable :=
  let m' := m.adjustRemove k
  { m' with
    bytesUsed := m'.bytesUsed + (1 + 4 + 4 + k.length),
    map := mapInsert m'.map k .delete }

/-! ## Memtable set (src/storage/memtable/set.rs) -/

/-- Active memtable plus the queue of frozen (immutable) memtables, in
push order: the newest frozen table is last. -/
structure MemTableSet where
  active : MemTable
  immutables : List MemTable
  maxBytes : Nat
deriving DecidableEq

def MemTableSet.withCapacity (maxBytes : Nat) : MemTableSet :=
  ⟨MemTable.new maxBytes, [], maxBytes⟩

/-- `rotate()`: no-op if the active memtable is empty, else replace it by
a fresh one, push the frozen one, and return (a clone of) the frozen one. -/
def MemTableSet.rotate (s : MemTableSet) : Option MemTable × MemTableSet :=
  if s.active.isEmpty then (none, s)
  else (some s.active,
        { s with active := MemTable.new s.maxBytes,
                 immutables := s.immutables ++ [s.active] })

def MemTableSet.put (s : MemTableSet) (k v : Bytes) : Option MemTable × MemTableSet :=
  let s' : MemTableSet := { s with active := s.active.put k v }
  if s'.active.overThreshold then s'.rotate else (none, s')

def MemTableSet.delete (s : MemTableSet) (k : Bytes) : Option MemTable × MemTableSet :=
  let s' : MemTableSet := { s with active := s.active.delete k }
  if s'.active.overThreshold then s'.rotate else (none, s')

/-- Lookup over a list of memtables, first hit wins. -/
def memListGet : List MemTable → Bytes → Option Entry
  | [], _ => none
  | m :: rest, k =>
    match m.get k with
    | some e => some e
    | none => memListGet rest k

/-- `MemTableSet::get`: active first, then immutables newest (last pushed)
first. -/
def MemTableSet.get (s : MemTableSet) (k : Bytes) : Option Entry :=
  match s.active.get k with
  | some e => some e
  | none => memListGet s.immutables.reverse k

/-! ## SSTables, record level (builder.rs / reader.rs) -/

/-- Record-level model of `SsTableReader::get`.  The reader locates the one
block whose key range covers `key` and linearly scans it, tracking the last
matching record; a matching `Put` yields its value and both a matching
`Delete` and "no match" collapse to `None` (the reader's return type cannot
distinguish them).  Since the builder writes the memtable's records in
ascending key order and blocks partition that sequence, scanning the whole
record list for the last match returns exactly what the found-block scan
returns. -/
def sstGet (recs : List (Bytes × Entry)) (key : Bytes) : Option Bytes :=
  let found := recs.foldl
    (fun (found : Option Entry) (r : Bytes × Entry) =>
      if r.1 = key then some r.2 else found) none
  match found with
  | some (.put v) => some v
  | some .delete => none
  | none => none

/-! ## Manifest actions (src/storage/manifest.rs) -/

/-- One manifest line, already parsed. -/
inductive ManifestLine
  | add (id : Nat)
  | remove (id : Nat)
deriving DecidableEq

/-- The accumulation loop of `replay_manifest` over parsed lines: `add`
appends the id, `remove` retains every id different from the argument
(i.e. removes all occurrences). -/
def replayActions (lines : List ManifestLine) : List Nat :=
  lines.foldl
    (fun active l =>
      match l with
      | .add id => active ++ [id]
      | .remove id => active.filter (fun x => decide (x ≠ id)))
    []

/-! ## LSM engine (src/engine/kv.rs) -/

/-- Engine state.  `sstables` is the live table list in push order (newest
last), each table being its id and the records its flush wrote.
`manifestLog` is the sequence of lines appended to the manifest. -/
structure EngineState where
  memtables : MemTableSet
  sstables : List (Nat × List (Bytes × Entry))
  nextTableId : Nat
  manifestLog : List ManifestLine
  actorId : Nat
  localCounter : Nat
deriving DecidableEq

/-- `LsmEngine::new` on a fresh directory: empty memtable set, no tables,
`next_table_id = 1`, `actor_id = 0`, `local_counter = 0`. -/
def LsmEngine.new (memtableMaxBytes : Nat) : EngineState :=
  { memtables := MemTableSet.withCapacity memtableMaxBytes
    sstables := []
    nextTableId := 1
    manifestLog := []
    actorId := 0
    localCounter := 0 }

/-- `new_with_manifest_and_actor` on a fresh directory: as `new`, then the
actor id is stored and the RGA counter initialized to 1. -/
def LsmEngine.newWithActor (memtableMaxBytes actor : Nat) : EngineState :=
  { LsmEngine.new memtableMaxBytes with actorId := actor, localCounter := 1 }

/-- `flush_immutable`: allocate an id, write the frozen memtable's records
as a new SSTable, record `add id` in the manifest, append the new reader. -/
def EngineState.flushImmutable (st : EngineState) (frozen : MemTable) : EngineState :=
  let id := st.nextTableId
  { st with
    nextTableId := id + 1,
    sstables := st.sstables ++ [(id, frozen.map)],
    manifestLog := st.manifestLog ++ [.add id] }

def EngineState.put (st : EngineState) (k v : Bytes) : EngineState :=
  match st.memtables.put k v with
  | (some frozen, ms) => EngineState.flushImmutable { st with memtables := ms } frozen
  | (none, ms) => { st with memtables := ms }

def EngineState.delete (st : EngineState) (k : Bytes) : EngineState :=
  match st.memtables.delete k with
  | (some frozen, ms) => EngineState.flushImmutable { st with memtables := ms } frozen
  | (none, ms) => { st with memtables := ms }

def EngineState.flush (st : EngineState) : EngineState :=
  match st.memtables.rotate with
  | (some frozen, ms) => EngineState.flushImmutable { st with memtables := ms } frozen
  | (none, ms) => { st with memtables := ms }

/-- The engine's SSTable loop: iterate the given (already reversed, newest
first) table list, first `Some` wins. -/
def sstScanRev : List (Nat × List (Bytes × Entry)) → Bytes → Option Bytes
  | [], _ => none
  | (_, recs) :: rest, k =>
    match sstGet recs k with
    | some v => some v
    | none => sstScanRev rest k

/-- `LsmEngine::get`: memtable set first (a Put hit returns the value, a
Delete hit returns None), then SSTables newest first. -/
def EngineState.get (st : EngineState) (k : Bytes) : Option Bytes :=
  match st.memtables.get k with
  | some (.put v) => some v
  | some .delete => none
  | none => sstScanRev st.sstables.reverse k

/-- `new_with_manifest` on the directory left behind by `st`: replay the
manifest, open the surviving tables in replay order, start with fresh
memtables, `next_table_id = max(active ids) + 1`, actor 0, counter 0. -/
def EngineState.reopen (st : EngineState) (memtableMaxBytes : Nat) : EngineState :=
  let ids := replayActions st.manifestLog
  { memtables := MemTableSet.withCapacity memtableMaxBytes
    sstables := ids.filterMap
      (fun id => (st.sstables.find? (fun p => p.1 == id)).map (fun p => (id, p.2)))
    nextTableId := (ids.foldl max 0) + 1
    manifestLog := st.manifestLog
    actorId := 0
    localCounter := 0 }

/-! ## Map lemmas -/

theorem mapLookup_mapInsert_self (l : List (Bytes × Entry)) (k : Bytes) (e : Entry) :
    mapLookup (mapInsert l k e) k = some e := by
  induction l with
  | nil => simp [mapInsert, mapLookup]
  | cons p rest ih =>
    obtain ⟨k', e'⟩ := p
    by_cases hk : k = k'
    · simp [mapInsert, hk, mapLookup]
    · by_cases hlt : bytesLt k k' = true
      · simp [mapInsert, hk, hlt, mapLookup]
      · simp [mapInsert, hk, hlt, mapLookup, ih]

theorem mapLookup_mapInsert_ne (l : List (Bytes × Entry)) (k : Bytes) (e : Entry)
    {k' : Bytes} (h : k' ≠ k) :
    mapLookup (mapInsert l k e) k' = mapLookup l k' := by
  induction l with
  | nil => simp [mapInsert, mapLookup, h]
  | cons p rest ih =>
    obtain ⟨k0, e0⟩ := p
    by_cases hk : k = k0
    · subst hk
      simp [mapInsert, mapLookup, h]
    · by_cases hlt : bytesLt k k0 = true
      · simp [mapInsert, hk, hlt, mapLookup, h]
      · simp [mapInsert, hk, hlt, mapLookup, ih]

theorem mapInsert_ne_nil (l : List (Bytes × Entry)) (k : Bytes) (e : Entry) :
    mapInsert l k e ≠ [] := by
  cases l with
  | nil => simp [mapInsert]
  | cons p rest =>
    obtain ⟨k', e'⟩ := p
    by_cases hk : k = k'
    · simp [mapInsert, hk]
    · by_cases hlt : bytesLt k k' = true
      · simp [mapInsert, hk, hlt]
      · simp [mapInsert, hk, hlt]

/-! ## Memtable-set read invariants -/

theorem memTable_get_put_self (m : MemTable) (k v : Bytes) :
    (m.put k v).get k = some (.put v) := by
  simp [MemTable.put, MemTable.get, mapLookup_mapInsert_self]

theorem memTable_get_put_ne (m : MemTable) (k v : Bytes) {key : Bytes} (h : key ≠ k) :
    (m.put k v).get key = m.get key := by
  simp [MemTable.put, MemTable.get, MemTable.adjustRemove, mapLookup_mapInsert_ne _ _ _ h]
  cases mapLookup m.map k <;> rfl

theorem memTable_get_delete_ne (m : MemTable) (k : Bytes) {key : Bytes} (h : key ≠ k) :
    (m.delete k).get key = m.get key := by
  simp [MemTable.delete, MemTable.get, MemTable.adjustRemove, mapLookup_mapInsert_ne _ _ _ h]
  cases mapLookup m.map k <;> rfl

theorem memTable_new_get (maxBytes : Nat) (k : Bytes) :
    (MemTable.new maxBytes).get k = none := rfl

/-- Rotation does not change what the memtable set answers for any key. -/
theorem msGet_rotate (s : MemTableSet) (key : Bytes) :
    (s.rotate.2).get key = s.get key := by
  unfold MemTableSet.rotate
  by_cases he : s.active.isEmpty
  · simp [he]
  · simp only [he, Bool.false_eq_true, if_false]
    simp [MemTableSet.get, memTable_new_get, List.reverse_append, memListGet]

/-- After `MemTableSet::put(k, v)` the set answers `Put v` for `k`, whether
or not the write crossed the threshold and rotated. -/
theorem msGet_put_self (s : MemTableSet) (k v : Bytes) :
    ((s.put k v).2).get k = some (.put v) := by
  unfold MemTableSet.put
  set s' : MemTableSet := { s with active := s.active.put k v } with hs'
  have hact : s'.active.get k = some (.put v) := memTable_get_put_self _ _ _
  by_cases ht : s'.active.overThreshold
  · simp only [ht, if_true]
    have hne : s'.active.isEmpty = false := by
      simp [MemTable.isEmpty, hs', MemTable.put, List.isEmpty_iff, mapInsert_ne_nil]
    unfold MemTableSet.rotate
    simp only [hne, Bool.false_eq_true, if_false]
    simp [MemTableSet.get, memTable_new_get, List.reverse_append, memListGet, hact]
  · simp only [ht, Bool.false_eq_true, if_false]
    simp [MemTableSet.get, hact]

theorem msGet_put_ne (s : MemTableSet) (k v : Bytes) {key : Bytes} (h : key ≠ k) :
    ((s.put k v).2).get key = s.get key := by
  unfold MemTableSet.put
  set s' : MemTableSet := { s with active := s.active.put k v } with hs'
  have hact : s'.active.get key = s.active.get key := memTable_get_put_ne _ _ _ h
  have hbase : s'.get key = s.get key := by
    simp [MemTableSet.get, hact, hs']
  by_cases ht : s'.active.overThreshold
  · simp only [ht, if_true]
    rw [msGet_rotate, hbase]
  · simp only [ht, Bool.false_eq_true, if_false]
    exact hbase

theorem msGet_delete_ne (s : MemTableSet) (k : Bytes) {key : Bytes} (h : key ≠ k) :
    ((s.delete k).2).get key = s.get key := by
  unfold MemTableSet.delete
  set s' : MemTableSet := { s with active := s.active.delete k } with hs'
  have hact : s'.active.get key = s.active.get key := memTable_get_delete_ne _ _ h
  have hbase : s'.get key = s.get key := by
    simp [MemTableSet.get, hact, hs']
  by_cases ht : s'.active.overThreshold
  · simp only [ht, if_true]
    rw [msGet_rotate, hbase]
  · simp only [ht, Bool.false_eq_true, if_false]
    exact hbase

/-! ## Engine operation sequences -/

/-- A public KV operation on the engine. -/
inductive Op
  | putOp (k v : Bytes)
  | delOp (k : Bytes)
  | flushOp
deriving DecidableEq

def applyOp (st : EngineState) : Op → EngineState
  | .putOp k v => st.put k v
  | .delOp k => st.delete k
  | .flushOp => st.flush

def applyOps (st : EngineState) (ops : List Op) : EngineState := ops.foldl applyOp st

/-- `o` does not write the key `key`. -/
def Op.avoids (o : Op) (key : Bytes) : Bool :=
  match o with
  | .putOp k _ => k ≠ key
  | .delOp k => k ≠ key
  | .flushOp => true

theorem enginePut_memtables (st : EngineState) (k v : Bytes) :
    (st.put k v).memtables = (st.memtables.put k v).2 := by
  unfold EngineState.put
  cases h : st.memtables.put k v with
  | mk frozen ms =>
    cases frozen <;> simp [EngineState.flushImmutable]

theorem engineDelete_memtables (st : EngineState) (k : Bytes) :
    (st.delete k).memtables = (st.memtables.delete k).2 := by
  unfold EngineState.delete
  cases h : st.memtables.delete k with
  | mk frozen ms =>
    cases frozen <;> simp [EngineState.flushImmutable]

theorem engineFlush_memtables (st : EngineState) :
    st.flush.memtables = st.memtables.rotate.2 := by
  unfold EngineState.flush
  cases h : st.memtables.rotate with
  | mk frozen ms =>
    cases frozen <;> simp [EngineState.flushImmutable]

theorem applyOp_avoids_memGet (st : EngineState) (o : Op) (key : Bytes)
    (h : o.avoids key = true) :
    (applyOp st o).memtables.get key = st.memtables.get key := by
  cases o with
  | putOp k v =>
    simp only [Op.avoids, decide_eq_true_eq] at h
    rw [applyOp, enginePut_memtables, msGet_put_ne _ _ _ (Ne.symm h)]
  | delOp k =>
    simp only [Op.avoids, decide_eq_true_eq] at h
    rw [applyOp, engineDelete_memtables, msGet_delete_ne _ _ (Ne.symm h)]
  | flushOp =>
    rw [applyOp, engineFlush_memtables, msGet_rotate]

theorem applyOps_avoids_memGet (ops : List Op) (st : EngineState) (key : Bytes)
    (h : ∀ o ∈ ops, o.avoids key = true) :
    (applyOps st ops).memtables.get key = st.memtables.get key := by
  induction ops generalizing st with
  | nil => rfl
  | cons o rest ih =>
    have h1 : o.avoids key = true := h o (List.mem_cons_self o rest)
    have h2 : ∀ o' ∈ rest, o'.avoids key = true := fun o' ho' => h o' (List.mem_cons_of_mem o ho')
    calc (applyOps st (o :: rest)).memtables.get key
        = (applyOps (applyOp st o) rest).memtables.get key := rfl
      _ = (applyOp st o).memtables.get key := ih (applyOp st o) h2
      _ = st.memtables.get key := applyOp_avoids_memGet st o key h1

/-- Claim C2: after `put(K, V)`, as long as no later put or delete touches
`K` (flushes and writes to other keys are allowed, and the put itself may
or may not have triggered a threshold flush), `get(K)` returns `Some V`;
in particular `put(K, V1); put(K, V2); get(K) = Some V2`. -/
theorem put_get_visibility (st : EngineState) (K V : Bytes) (ops : List Op)
    (h : ∀ o ∈ ops, o.avoids K = true) :
    (applyOps (st.put K V) ops).get K = some V ∧
    ∀ V1 : Bytes, ((st.put K V1).put K V).get K = some V := by
  constructor
  · have hmem : (applyOps (st.put K V) ops).memtables.get K = some (.put V) := by
      rw [applyOps_avoids_memGet ops _ K h, enginePut_memtables, msGet_put_self]
    rw [EngineState.get, hmem]
  · intro V1
    have hmem : ((st.put K V1).put K V).memtables.get K = some (.put V) := by
      rw [enginePut_memtables, msGet_put_self]
    rw [EngineState.get, hmem]

/-- Witness for C2: a concrete run in which the first put itself triggers a
threshold flush (max_bytes = 1) and is followed by a write to another key
and an explicit flush. -/
theorem put_get_visibility_witness :
    (∀ o ∈ [Op.putOp [3] [4], Op.flushOp], o.avoids [1] = true) ∧
    (applyOps ((LsmEngine.new 1).put [1] [2]) [Op.putOp [3] [4], Op.flushOp]).get [1] = some [2] :=
  ⟨by decide,
   (put_get_visibility (LsmEngine.new 1) [1] [2] [Op.putOp [3] [4], Op.flushOp]
      (by decide)).1⟩

/-- Claim C1 (divergence witness): the reader's return type collapses "key
present as Delete" and "absent" into `None`, so `LsmEngine::get` cannot
short-circuit on a tombstone stored in a newer SSTable and falls through to
an older table's Put.  Concretely: on a fresh engine, `put k v; flush;
delete k; flush; reopen` yields a state whose memtables are empty, whose
newest SSTable holds a Delete for `k`, and whose older SSTable holds
`Put v` — and `get k` returns `Some v`, where the specification requires
`None`. -/
theorem sstable_tombstone_not_shadowing :
    EngineState.get
      (EngineState.reopen ((((LsmEngine.new 1000).put [107] [118]).flush.delete [107]).flush) 1000)
      [107] = some [118] := by decide

/-- Claim C3 (counterexample): with `max_bytes = 1` a single put crosses the
threshold, the frozen memtable is flushed, and — the flush pipeline never
popping the immutable queue — the queue is not empty when `put` returns. -/
theorem immutable_queue_not_emptied :
    ((LsmEngine.new 1).put [0] [1]).memtables.immutables.length ≠ 0 := by decide

/-- Claim C3 (amended): a public `put`/`delete`/`flush` never removes a
frozen memtable from the immutable queue.  The queue grows by exactly one
whenever the call rotates (for `put`/`delete`: the write pushed the active
memtable to or past the threshold; for `flush`: the active memtable was
non-empty) and is unchanged otherwise; the flushed SSTable is built from a
clone, and the frozen memtable keeps serving reads. -/
theorem immutable_queue_growth (st : EngineState) (k v : Bytes) :
    ((st.put k v).memtables.immutables.length
      = st.memtables.immutables.length
        + (if (st.memtables.active.put k v).overThreshold then 1 else 0)) ∧
    ((st.delete k).memtables.immutables.length
      = st.memtables.immutables.length
        + (if (st.memtables.active.delete k).overThreshold then 1 else 0)) ∧
    (st.flush.memtables.immutables.length
      = st.memtables.immutables.length
        + (if st.memtables.active.isEmpty then 0 else 1)) := by
  refine ⟨?_, ?_, ?_⟩
  · rw [enginePut_memtables]
    unfold MemTableSet.put
    by_cases ht : (st.memtables.active.put k v).overThreshold
    · simp only [ht, if_true]
      unfold MemTableSet.rotate
      have hne : (st.memtables.active.put k v).isEmpty = false := by
        simp [MemTable.isEmpty, MemTable.put, List.isEmpty_iff, mapInsert_ne_nil]
      simp [hne]
    · simp [ht]
  · rw [engineDelete_memtables]
    unfold MemTableSet.delete
    by_cases ht : (st.memtables.active.delete k).overThreshold
    · simp only [ht, if_true]
      unfold MemTableSet.rotate
      have hne : (st.memtables.active.delete k).isEmpty = false := by
        simp [MemTable.isEmpty, MemTable.delete, List.isEmpty_iff, mapInsert_ne_nil]
      simp [hne]
    · simp [ht]
  · rw [engineFlush_memtables]
    unfold MemTableSet.rotate
    by_cases he : st.memtables.active.isEmpty
    · simp [he]
    · simp [he]

/-! ## Manifest text parsing (src/storage/manifest.rs, replay_manifest) -/

/-- `str::split_whitespace`: split on whitespace, dropping empty tokens. -/
def splitWsAux : List Char → List Char → List (List Char)
  | [], acc => if acc = [] then [] else [acc.reverse]
  | c :: rest, acc =>
    if c.isWhitespace then
      if acc = [] then splitWsAux rest [] else acc.reverse :: splitWsAux rest []
    else splitWsAux rest (c :: acc)

def splitWs (s : List Char) : List (List Char) := splitWsAux s []

/-- `str::parse::<u64>()`: an optional leading plus sign, then at least one
ASCII digit, value below 2^64; anything else is a parse error (`none`). -/
def parseU64 (s : List Char) : Option Nat :=
  let ds := match s with
    | '+' :: rest => rest
    | _ => s
  if ds = [] then none
  else if ds.all Char.isDigit then
    let v := ds.foldl (fun a c => a * 10 + (c.toNat - '0'.toNat)) 0
    if v < 2 ^ 64 then some v else none
  else none

/-- `replay_manifest` over the manifest's lines.  A failing `id.parse()`
inside an `add`/`remove` arm is an `unwrap` panic, modelled as `none`;
lines matching neither two-token shape are skipped. -/
def replayManifest (lines : List String) : Option (List Nat) :=
  lines.foldlM
    (fun active line =>
      match splitWs line.data with
      | [w, idTok] =>
        if w = "add".data then
          (parseU64 idTok).map (fun id => active ++ [id])
        else if w = "remove".data then
          (parseU64 idTok).map (fun id => active.filter (fun x => decide (x ≠ id)))
        else some active
      | _ => some active)
    []

/-- Claim C4 (counterexample): `remove` lines are replayed with
`retain(|x| x != id)`, which removes every occurrence of the id, not only
the first: replaying `add 7; add 7; remove 7` yields `[]`, while
first-occurrence removal would yield `[7]`. -/
theorem replay_remove_all_occurrences :
    replayManifest ["add 7", "add 7", "remove 7"] = some [] ∧
    replayManifest ["add 7", "add 7", "remove 7"] ≠ some [7] := by decide

/-- Claim C4 (amended): replay returns the table ids in the order of their
`add` lines, and each `remove id` line removes every occurrence of that id
from the accumulated list; replay of `add a; add b; remove a` still yields
`[b]` for distinct ids `a` and `b`. -/
theorem replay_add_remove_order (a b : Nat) (h : a ≠ b) :
    replayActions [.add a, .add b, .remove a] = [b] ∧
    replayActions [.add a, .add a, .remove a] = [] ∧
    replayManifest ["add 1", "add 2", "remove 1"] = some [2] := by
  refine ⟨?_, by simp [replayActions], by decide⟩
  simp [replayActions, h, Ne.symm h]

/-- Witness for the amended C4 at `a = 1`, `b = 2`. -/
theorem replay_add_remove_order_witness :
    (1 : Nat) ≠ 2 ∧ replayActions [.add 1, .add 2, .remove 1] = [2] :=
  ⟨by decide, (replay_add_remove_order 1 2 (by decide)).1⟩

/-- Claim C10: replay is not total over manifest contents — a two-token
`add`/`remove` line whose id does not parse as a decimal u64 panics via
`unwrap` (modelled as `none`), while lines matching neither two-token shape
are silently ignored. -/
theorem replay_panics_on_bad_id :
    replayManifest ["add x"] = none ∧
    replayManifest ["remove 12c"] = none ∧
    replayManifest ["bogus line", "add 1", "add 2 extra", "", "  "] = some [1] := by
  decide

/-! ## G-Set CRDT (src/engine/crdt.rs) -/

/-- Non-strict byte-string order, for sorting. -/
def bytesLeP (x y : Bytes) : Prop := bytesLt x y = true ∨ x = y

/-- Strict byte-string order as a Prop. -/
def bytesLtP (x y : Bytes) : Prop := bytesLt x y = true

instance : DecidableRel bytesLeP := fun x y =>
  inferInstanceAs (Decidable (bytesLt x y = true ∨ x = y))

instance : DecidableRel bytesLtP := fun x y =>
  inferInstanceAs (Decidable (bytesLt x y = true))

instance : IsTotal Bytes bytesLeP :=
  ⟨fun x y => by
    rcases bytesLt_trichotomy x y with h | h | h
    · exact Or.inl (Or.inl h)
    · exact Or.inl (Or.inr h)
    · exact Or.inr (Or.inl h)⟩

instance : IsTrans Bytes bytesLeP :=
  ⟨fun x y z hxy hyz => by
    rcases hxy with hxy | hxy
    · rcases hyz with hyz | hyz
      · exact Or.inl (bytesLt_trans hxy hyz)
      · subst hyz; exact Or.inl hxy
    · subst hxy; exact hyz⟩

instance : IsAntisymm Bytes bytesLeP :=
  ⟨fun x y hxy hyx => by
    rcases hxy with hxy | hxy
    · rcases hyx with hyx | hyx
      · have := bytesLt_asymm hxy
        rw [hyx] at this
        exact Bool.noConfusion this
      · exact hyx.symm
    · exact hxy⟩

/-- Grow-only set: sorted, deduplicated byte strings. -/
structure GSet where
  elems : List Bytes
deriving DecidableEq

def GSet.new : GSet := ⟨[]⟩

/-- `GSet::insert` is a `binary_search` followed by a positional insert;
on the sorted representation this is an ordered insert that skips an
element already present. -/
def insertSortedBytes : List Bytes → Bytes → List Bytes
  | [], k => [k]
  | e :: rest, k =>
    if k = e then e :: rest
    else if bytesLt k e then k :: e :: rest
    else e :: insertSortedBytes rest k

def GSet.insert (g : GSet) (k : Bytes) : GSet := ⟨insertSortedBytes g.elems k⟩

def GSet.elements (g : GSet) : List Bytes := g.elems

/-- `GSet::merge` loop body.  The two-pointer walk consumes at least one
element per step, so it is driven by a fuel bounded below by the sum of the
lengths; the zero-fuel branch is unreachable from `mergeBytesLists`. -/
def mergeBytesAux : Nat → List Bytes → List Bytes → List Bytes
  | 0, _, _ => []
  | _ + 1, [], b => b
  | _ + 1, a :: as, [] => a :: as
  | fuel + 1, a :: as, b :: bs =>
    if bytesLt a b then a :: mergeBytesAux fuel as (b :: bs)
    else if bytesLt b a then b :: mergeBytesAux fuel (a :: as) bs
    else a :: mergeBytesAux fuel as bs

/-- `GSet::merge`: linear two-pointer union of two sorted sequences,
deduplicating on equality. -/
def mergeBytesLists (x y : List Bytes) : List Bytes :=
  mergeBytesAux (x.length + y.length) x y

def GSet.merge (g other : GSet) : GSet := ⟨mergeBytesLists g.elems other.elems⟩

/-- Big-endian 4-byte encoding of a `u32` (a longer value wraps, as the
source's `as u32` cast does). -/
def be32 (n : Nat) : Bytes :=
  [n / 2 ^ 24 % 256, n / 2 ^ 16 % 256, n / 2 ^ 8 % 256, n % 256]

/-- Big-endian read of the first four bytes. -/
def read32 : Bytes → Nat
  | b0 :: b1 :: b2 :: b3 :: _ => b0 * 2 ^ 24 + b1 * 2 ^ 16 + b2 * 2 ^ 8 + b3
  | _ => 0

/-- `GSet::to_bytes` body: each element length-prefixed. -/
def encodeGsElems : List Bytes → Bytes
  | [] => []
  | e :: rest => be32 e.length ++ e ++ encodeGsElems rest

def GSet.to_bytes (g : GSet) : Bytes := be32 g.elems.length ++ encodeGsElems g.elems

/-- The element-reading loop of `GSet::from_bytes`: up to `cnt` elements,
stopping at the first short read. -/
def decodeGsElems : Nat → Bytes → List Bytes
  | 0, _ => []
  | cnt + 1, bs =>
    if bs.length < 4 then []
    else
      let l := read32 bs
      let rest := bs.drop 4
      if rest.length < l then []
      else rest.take l :: decodeGsElems cnt (rest.drop l)

def sortBytes (l : List Bytes) : List Bytes := List.insertionSort bytesLeP l

/-- `Vec::dedup`: drop consecutive duplicates. -/
def dedupBytes : List Bytes → List Bytes
  | [] => []
  | [a] => [a]
  | a :: b :: rest =>
    if a = b then dedupBytes (b :: rest) else a :: dedupBytes (b :: rest)

/-- `GSet::from_bytes`: returns the empty set on fewer than 4 bytes,
otherwise decodes leniently and re-sorts and dedups the result. -/
def GSet.from_bytes (bs : Bytes) : GSet :=
  if bs.length < 4 then GSet.new
  else ⟨dedupBytes (sortBytes (decodeGsElems (read32 bs) (bs.drop 4)))⟩

theorem gset_from_bytes_nil : GSet.from_bytes [] = GSet.new := rfl

/-! ### G-Set codec lemmas -/

theorem be32_length (n : Nat) : (be32 n).length = 4 := rfl

theorem read32_be32_append (n : Nat) (tail : Bytes) :
    read32 (be32 n ++ tail) = n % 2 ^ 32 := by
  show n / 2 ^ 24 % 256 * 2 ^ 24 + n / 2 ^ 16 % 256 * 2 ^ 16 + n / 2 ^ 8 % 256 * 2 ^ 8 + n % 256
      = n % 2 ^ 32
  omega

theorem drop_be32_append (n : Nat) (tail : Bytes) : (be32 n ++ tail).drop 4 = tail := by
  have := List.drop_left (be32 n) tail
  rwa [be32_length] at this

theorem decode_encode_gs (l : List Bytes) (hlen : ∀ e ∈ l, e.length < 2 ^ 32) :
    decodeGsElems l.length (encodeGsElems l) = l := by
  induction l with
  | nil => rfl
  | cons e rest ih =>
    have he : e.length < 2 ^ 32 := hlen e (List.mem_cons_self e rest)
    have hrest : ∀ x ∈ rest, x.length < 2 ^ 32 :=
      fun x hx => hlen x (List.mem_cons_of_mem e hx)
    show decodeGsElems (rest.length + 1) (be32 e.length ++ (e ++ encodeGsElems rest)) = e :: rest
    rw [decodeGsElems]
    have h4 : ¬ (be32 e.length ++ (e ++ encodeGsElems rest)).length < 4 := by
      simp [be32]
    rw [if_neg h4]
    rw [read32_be32_append, Nat.mod_eq_of_lt he, drop_be32_append]
    have hge : ¬ (e ++ encodeGsElems rest).length < e.length := by
      simp
    rw [if_neg hge, List.take_left, List.drop_left, ih hrest]

theorem mem_dedupBytes : ∀ (l : List Bytes) (x : Bytes), x ∈ dedupBytes l → x ∈ l
  | [], x, h => by simp [dedupBytes] at h
  | [a], x, h => by simpa [dedupBytes] using h
  | a :: b :: rest, x, h => by
    rw [dedupBytes] at h
    by_cases hab : a = b
    · rw [if_pos hab] at h
      exact List.mem_cons_of_mem a (mem_dedupBytes (b :: rest) x h)
    · rw [if_neg hab] at h
      rcases List.mem_cons.mp h with h | h
      · simp [h]
      · exact List.mem_cons_of_mem a (mem_dedupBytes (b :: rest) x h)

theorem dedupBytes_of_pairwise_lt :
    ∀ {l : List Bytes}, l.Pairwise bytesLtP → dedupBytes l = l
  | [], _ => rfl
  | [_], _ => rfl
  | a :: b :: rest, h => by
    have hab : bytesLtP a b := (List.pairwise_cons.mp h).1 b (List.mem_cons_self b rest)
    have hne : a ≠ b := bytesLt_ne hab
    rw [dedupBytes, if_neg hne, dedupBytes_of_pairwise_lt (List.pairwise_cons.mp h).2]

theorem dedupBytes_sorted :
    ∀ {l : List Bytes}, l.Pairwise bytesLeP → (dedupBytes l).Pairwise bytesLtP
  | [], _ => List.Pairwise.nil
  | [a], _ => by simp [dedupBytes]
  | a :: b :: rest, h => by
    obtain ⟨hale, htail⟩ := List.pairwise_cons.mp h
    by_cases hab : a = b
    · rw [dedupBytes, if_pos hab]
      exact dedupBytes_sorted htail
    · rw [dedupBytes, if_neg hab]
      refine List.pairwise_cons.mpr ⟨?_, dedupBytes_sorted htail⟩
      intro x hx
      have hxmem : x ∈ b :: rest := mem_dedupBytes _ x hx
      have hax : bytesLeP a x := hale x hxmem
      rcases hax with hax | hax
      · exact hax
      · subst hax
        rcases List.mem_cons.mp hxmem with hxb | hxr
        -- the head cannot reappear later in a sorted tail whose head differs
        · exact absurd hxb hab
        · have hba : bytesLeP b a := (List.pairwise_cons.mp htail).1 a hxr
          have hab' : bytesLeP a b := hale b (List.mem_cons_self b rest)
          exact absurd (antisymm hab' hba) hab

theorem sortBytes_sorted (l : List Bytes) : (sortBytes l).Pairwise bytesLeP :=
  List.sorted_insertionSort bytesLeP l

theorem sortBytes_of_sorted {l : List Bytes} (h : l.Pairwise bytesLeP) : sortBytes l = l :=
  List.Sorted.insertionSort_eq h

/-- Claim C7: `from_bytes (to_bytes g) = g` for a well-formed G-Set (one
whose elements are strictly ascending and whose representable sizes fit in
the u32 length prefixes), and `from_bytes` of an arbitrary byte sequence
never fails and yields a strictly ascending (sorted, deduplicated)
element list. -/
theorem gset_roundtrip_and_normalize (g : GSet)
    (hasc : g.elems.Pairwise bytesLtP)
    (hcnt : g.elems.length < 2 ^ 32)
    (hlen : ∀ e ∈ g.elems, e.length < 2 ^ 32) :
    GSet.from_bytes g.to_bytes = g ∧
    ∀ bs : Bytes, (GSet.from_bytes bs).elems.Pairwise bytesLtP := by
  constructor
  · have hle : g.elems.Pairwise bytesLeP := hasc.imp (fun h => Or.inl h)
    rw [GSet.to_bytes, GSet.from_bytes]
    have h4 : ¬ (be32 g.elems.length ++ encodeGsElems g.elems).length < 4 := by
      simp [be32]
    rw [if_neg h4, read32_be32_append, Nat.mod_eq_of_lt hcnt, drop_be32_append,
        decode_encode_gs g.elems hlen, sortBytes_of_sorted hle,
        dedupBytes_of_pairwise_lt hasc]
  · intro bs
    rw [GSet.from_bytes]
    by_cases h4 : bs.length < 4
    · rw [if_pos h4]
      exact List.Pairwise.nil
    · rw [if_neg h4]
      exact dedupBytes_sorted (sortBytes_sorted _)

/-- Witness for C7 at the two-element set with elements `[1]` and `[2, 3]`. -/
theorem gset_roundtrip_and_normalize_witness :
    (([[1], [2, 3]] : List Bytes).Pairwise bytesLtP ∧
      ([[1], [2, 3]] : List Bytes).length < 2 ^ 32 ∧
      ∀ e ∈ ([[1], [2, 3]] : List Bytes), e.length < 2 ^ 32) ∧
    (GSet.from_bytes (GSet.to_bytes ⟨[[1], [2, 3]]⟩) = ⟨[[1], [2, 3]]⟩ ∧
      ∀ bs : Bytes, (GSet.from_bytes bs).elems.Pairwise bytesLtP) :=
  ⟨⟨by decide, by decide, by decide⟩,
   gset_roundtrip_and_normalize ⟨[[1], [2, 3]]⟩ (by decide) (by decide) (by decide)⟩

/-! ## CRDT-KV glue (src/engine/kv.rs, gset_add / gset_get) -/

/-- `LsmEngine::gset_add`: seed the read-modify-write from the memtable
set's entry only when it is a `Put`; a `Delete` tombstone (or no entry)
falls through to the newest SSTable hit; with no hit anywhere, start from
the empty set. -/
def EngineState.gsetAdd (st : EngineState) (key elem : Bytes) : EngineState :=
  match st.memtables.get key with
  | some (.put existing) =>
    st.put key (((GSet.from_bytes existing).insert elem).to_bytes)
  | _ =>
    match sstScanRev st.sstables.reverse key with
    | some bytes => st.put key (((GSet.from_bytes bytes).insert elem).to_bytes)
    | none => st.put key ((GSet.new.insert elem).to_bytes)

/-- `LsmEngine::gset_get`: merge every layer that holds the key (memtable
`Put` entry, then every SSTable newest first) into one accumulator. -/
def EngineState.gsetGet (st : EngineState) (key : Bytes) : List Bytes :=
  let acc := GSet.new
  let acc := match st.memtables.get key with
    | some (.put bytes) => acc.merge (GSet.from_bytes bytes)
    | _ => acc
  (st.sstables.reverse.foldl
    (fun a p =>
      match sstGet p.2 key with
      | some bytes => a.merge (GSet.from_bytes bytes)
      | none => a) acc).elements

/-- A concrete engine in which key `[9]` holds the G-Set containing `[97]`
in SSTable 1 and a KV-level `Delete` tombstone in the active memtable. -/
def gsetDemoState : EngineState :=
  (((LsmEngine.new 1000).put [9] ((GSet.new.insert [97]).to_bytes)).flush).delete [9]

/-- Claim C9: when the memtable set's newest entry for `key` is a `Delete`
tombstone, `gset_add` ignores it and seeds the read-modify-write from the
newest SSTable value (the empty set only if no table holds the key) — so an
element removed at the KV level by `delete(key)` reappears in the
written-back G-Set.  Concretely: after `put [9] (gset containing 97); flush;
delete [9]` the KV read of `[9]` is `None`, yet `gset_add [9] 98` resurrects
`97`, and `gset_get [9]` then returns both elements. -/
theorem gset_add_ignores_tombstone (st : EngineState) (key elem : Bytes)
    (h : st.memtables.get key = some .delete) :
    st.gsetAdd key elem
      = st.put key
          (((GSet.from_bytes ((sstScanRev st.sstables.reverse key).getD [])).insert elem).to_bytes) ∧
    (gsetDemoState.get [9] = none ∧
     (gsetDemoState.gsetAdd [9] [98]).gsetGet [9] = [[97], [98]]) := by
  constructor
  · rw [EngineState.gsetAdd, h]
    cases hscan : sstScanRev st.sstables.reverse key with
    | none => simp [gset_from_bytes_nil]
    | some bytes => simp
  · exact ⟨by decide, by decide⟩

/-- Witness for C9 at the concrete tombstoned state. -/
theorem gset_add_ignores_tombstone_witness :
    gsetDemoState.memtables.get [9] = some .delete ∧
    gsetDemoState.gsetAdd [9] [98]
      = gsetDemoState.put [9]
          (((GSet.from_bytes ((sstScanRev gsetDemoState.sstables.reverse [9]).getD [])).insert
              [98]).to_bytes) :=
  ⟨by decide, (gset_add_ignores_tombstone gsetDemoState [9] [98] (by decide)).1⟩

/-! ## RGA CRDT (src/engine/crdt.rs) -/

/-- Unique identifier for an RGA element: `(actor, counter)`, totally
ordered by actor then counter (the derived Rust `Ord`). -/
structure ElementId where
  actor : Nat
  counter : Nat
deriving DecidableEq

def eidLtB (a b : ElementId) : Bool :=
  decide (a.actor < b.actor) || (decide (a.actor = b.actor) && decide (a.counter < b.counter))

def eidLtP (a b : ElementId) : Prop := eidLtB a b = true

def eidLeP (a b : ElementId) : Prop := eidLtP a b ∨ a = b

instance : DecidableRel eidLtP := fun _ _ => inferInstanceAs (Decidable (_ = true))

instance : DecidableRel eidLeP := fun _ _ => inferInstanceAs (Decidable (_ ∨ _))

theorem eidLtP_iff (a b : ElementId) :
    eidLtP a b ↔ a.actor < b.actor ∨ (a.actor = b.actor ∧ a.counter < b.counter) := by
  simp [eidLtP, eidLtB]

theorem eidLtP_irrefl (a : ElementId) : ¬ eidLtP a a := by
  rw [eidLtP_iff]
  omega

theorem eidLtP_trans {a b c : ElementId} (hab : eidLtP a b) (hbc : eidLtP b c) :
    eidLtP a c := by
  rw [eidLtP_iff] at hab hbc ⊢
  omega

theorem eidLtP_trichotomy (a b : ElementId) : eidLtP a b ∨ a = b ∨ eidLtP b a := by
  rw [eidLtP_iff]
  rcases Nat.lt_trichotomy a.actor b.actor with h | h | h
  · left; omega
  · rcases Nat.lt_trichotomy a.counter b.counter with h' | h' | h'
    · left; omega
    · right; left
      cases a; cases b
      simp_all
    · right; right
      rw [eidLtP_iff]
      omega
  · right; right
    rw [eidLtP_iff]
    omega

theorem eidLtP_ne {a b : ElementId} (h : eidLtP a b) : a ≠ b := by
  intro he
  subst he
  exact eidLtP_irrefl a h

instance : IsTotal ElementId eidLeP :=
  ⟨fun a b => by
    rcases eidLtP_trichotomy a b with h | h | h
    · exact Or.inl (Or.inl h)
    · exact Or.inl (Or.inr h)
    · exact Or.inr (Or.inl h)⟩

instance : IsTrans ElementId eidLeP :=
  ⟨fun a b c hab hbc => by
    rcases hab with hab | hab
    · rcases hbc with hbc | hbc
      · exact Or.inl (eidLtP_trans hab hbc)
      · subst hbc; exact Or.inl hab
    · subst hab; exact hbc⟩

/-- One RGA element: id, insertion anchor, payload, tombstone flag. -/
structure Element where
  id : ElementId
  prev : Option ElementId
  value : Bytes
  deleted : Bool
deriving DecidableEq

/-- `BTreeMap::get` on the id-sorted element list. -/
def eLookup : List (ElementId × Element) → ElementId → Option Element
  | [], _ => none
  | (k, e) :: rest, id => if id = k then some e else eLookup rest id

/-- `BTreeMap::entry(id).or_insert(elem)`: insert at the ordered position
only when the id is absent. -/
def eInsertIfAbsent : List (ElementId × Element) → ElementId → Element → List (ElementId × Element)
  | [], id, e => [(id, e)]
  | (k, e') :: rest, id, e =>
    if id = k then (k, e') :: rest
    else if eidLtB id k then (id, e) :: (k, e') :: rest
    else (k, e') :: eInsertIfAbsent rest id e

/-- `get_mut` + `deleted = true` on the stored element. -/
def markDeleted : List (ElementId × Element) → ElementId → List (ElementId × Element)
  | [], _ => []
  | (k, e) :: rest, id =>
    if id = k then (k, { e with deleted := true }) :: rest
    else (k, e) :: markDeleted rest id

/-- State-based RGA: map from ElementId to Element. -/
structure Rga where
  elems : List (ElementId × Element)
deriving DecidableEq

def Rga.new : Rga := ⟨[]⟩

/-- `Rga::insert`: a no-op when the id already exists. -/
def Rga.insert (r : Rga) (id : ElementId) (prev : Option ElementId) (value : Bytes) : Rga :=
  ⟨eInsertIfAbsent r.elems id ⟨id, prev, value, false⟩⟩

/-- `Rga::delete`: tombstone the existing element, or install a
placeholder (empty value, no prev, deleted) for a not-yet-known id. -/
def Rga.delete (r : Rga) (id : ElementId) : Rga :=
  match eLookup r.elems id with
  | some _ => ⟨markDeleted r.elems id⟩
  | none => ⟨eInsertIfAbsent r.elems id ⟨id, none, [], true⟩⟩

/-- Value update of `Rga::merge`: adopt the remote value only when the
local one is empty and the remote one is not. -/
def joinVal (a b : Bytes) : Bytes := if a.isEmpty && !b.isEmpty then b else a

/-- Prev update of `Rga::merge`: adopt the remote prev only when the local
one is none and the remote one is some. -/
def joinPrev (a b : Option ElementId) : Option ElementId :=
  if a.isNone && b.isSome then b else a

/-- The per-element update `Rga::merge` applies when the id is present on
both sides (`e` local, `f` remote): or the tombstones, adopt the remote
value when the local one is empty, adopt the remote prev when the local
one is none. -/
def joinE (e f : Element) : Element :=
  { e with
    deleted := e.deleted || f.deleted,
    value := joinVal e.value f.value,
    prev := joinPrev e.prev f.prev }

/-- One step of `Rga::merge`: insert the remote element, or join it into
the local one with `joinE`. -/
def mergeOne : List (ElementId × Element) → ElementId → Element → List (ElementId × Element)
  | [], id, f => [(id, f)]
  | (k, e) :: rest, id, f =>
    if id = k then (k, joinE e f) :: rest
    else if eidLtB id k then (id, f) :: (k, e) :: rest
    else (k, e) :: mergeOne rest id f

def elMerge (a b : List (ElementId × Element)) : List (ElementId × Element) :=
  b.foldl (fun acc p => mergeOne acc p.1 p.2) a

/-- `Rga::merge`: fold the remote elements into the local map. -/
def Rga.merge (r other : Rga) : Rga := ⟨elMerge r.elems other.elems⟩

/-- Keys of the association-list representation of the `BTreeMap` are
strictly ascending. -/
def EKeysSorted (l : List (ElementId × Element)) : Prop :=
  l.Pairwise (fun p q => eidLtP p.1 q.1)

instance : DecidableRel (fun (p q : ElementId × Element) => eidLtP p.1 q.1) :=
  fun p q => inferInstanceAs (Decidable (eidLtP p.1 q.1))

instance (l : List (ElementId × Element)) : Decidable (EKeysSorted l) :=
  inferInstanceAs (Decidable (List.Pairwise _ l))

/-- Well-formedness of the association-list representation of the
`BTreeMap`: keys strictly ascending, and each element records its own key
as its id. -/
def RgaWF (r : Rga) : Prop :=
  EKeysSorted r.elems ∧ ∀ p ∈ r.elems, p.2.id = p.1

/-! ## Element-id counter (src/engine/kv.rs, next_element_id) -/

/-- `next_element_id`: `fetch_add(1)` on the u64 counter (wrapping),
returning the pre-increment value paired with the actor id. -/
def EngineState.nextElementId (st : EngineState) : ElementId × EngineState :=
  (⟨st.actorId, st.localCounter⟩, { st with localCounter := (st.localCounter + 1) % 2 ^ 64 })

/-- The id returned by the `(k+1)`-st call to `next_element_id`. -/
def nthElementId (st : EngineState) : Nat → ElementId
  | 0 => st.nextElementId.1
  | k + 1 => nthElementId st.nextElementId.2 k

theorem nthElementId_counter :
    ∀ (k : Nat) (st : EngineState), st.localCounter < 2 ^ 64 →
      (nthElementId st k).counter = (st.localCounter + k) % 2 ^ 64
  | 0, st, h => by
    show st.localCounter = (st.localCounter + 0) % 2 ^ 64
    rw [Nat.add_zero, Nat.mod_eq_of_lt h]
  | k + 1, st, h => by
    show (nthElementId st.nextElementId.2 k).counter = (st.localCounter + (k + 1)) % 2 ^ 64
    rw [nthElementId_counter k st.nextElementId.2 (Nat.mod_lt _ (by norm_num))]
    show ((st.localCounter + 1) % 2 ^ 64 + k) % 2 ^ 64 = (st.localCounter + (k + 1)) % 2 ^ 64
    rw [Nat.mod_add_mod]
    ring_nf

/-- Claim C8 (counterexample): on an engine opened without an actor id
(`LsmEngine::new` / `new_with_manifest`), `local_counter` starts at 0, so
the first `next_element_id` call returns counter 0, not 1. -/
theorem first_element_id_not_one :
    (nthElementId (LsmEngine.new 64) 0).counter ≠ 1 := by decide

/-- Claim C8 (amended): on an engine opened with an actor id
(`new_with_manifest_and_actor`) the counter sequence starts at 1 and each
subsequent call returns a counter exactly one larger (until the u64 wraps);
on an engine opened without an actor id the sequence starts at 0 instead. -/
theorem element_id_counter_sequence (memMax actor k : Nat) (h : k + 2 < 2 ^ 64) :
    (nthElementId (LsmEngine.newWithActor memMax actor) 0).counter = 1 ∧
    (nthElementId (LsmEngine.newWithActor memMax actor) (k + 1)).counter
      = (nthElementId (LsmEngine.newWithActor memMax actor) k).counter + 1 ∧
    (nthElementId (LsmEngine.new memMax) 0).counter = 0 := by
  have h1 : (LsmEngine.newWithActor memMax actor).localCounter = 1 := rfl
  have hlt : (LsmEngine.newWithActor memMax actor).localCounter < 2 ^ 64 := by
    rw [h1]; norm_num
  refine ⟨?_, ?_, rfl⟩
  · rw [nthElementId_counter 0 _ hlt, h1]
    norm_num
  · rw [nthElementId_counter (k + 1) _ hlt, nthElementId_counter k _ hlt, h1,
        Nat.mod_eq_of_lt (by omega), Nat.mod_eq_of_lt (by omega)]
    omega

/-- Witness for the amended C8 at `k = 3`. -/
theorem element_id_counter_sequence_witness :
    (3 : Nat) + 2 < 2 ^ 64 ∧
    (nthElementId (LsmEngine.newWithActor 64 9) 4).counter
      = (nthElementId (LsmEngine.newWithActor 64 9) 3).counter + 1 :=
  ⟨by norm_num, (element_id_counter_sequence 64 9 3 (by norm_num)).2.1⟩

/-! ## RGA merge as a per-key join -/

theorem eLookup_eq_none :
    ∀ {l : List (ElementId × Element)} {id : ElementId},
      (∀ p ∈ l, id ≠ p.1) → eLookup l id = none
  | [], _, _ => rfl
  | (k, e) :: rest, id, h => by
    rw [eLookup, if_neg (h (k, e) (List.mem_cons_self _ _))]
    exact eLookup_eq_none fun q hq => h q (List.mem_cons_of_mem _ hq)

theorem eLookup_some_mem_pair :
    ∀ {l : List (ElementId × Element)} {id : ElementId} {e : Element},
      eLookup l id = some e → (id, e) ∈ l
  | [], _, _, h => by simp [eLookup] at h
  | (k, e') :: rest, id, e, h => by
    rw [eLookup] at h
    by_cases hk : id = k
    · rw [if_pos hk] at h
      injection h with h
      subst hk
      subst h
      exact List.mem_cons_self _ _
    · rw [if_neg hk] at h
      exact List.mem_cons_of_mem _ (eLookup_some_mem_pair h)

theorem eLookup_self_id {l : List (ElementId × Element)} {id : ElementId} {e : Element}
    (hwf : ∀ p ∈ l, p.2.id = p.1) (h : eLookup l id = some e) : e.id = id :=
  hwf (id, e) (eLookup_some_mem_pair h)

theorem eLookup_mergeOne_self :
    ∀ {l : List (ElementId × Element)} (id : ElementId) (f : Element),
      EKeysSorted l →
      eLookup (mergeOne l id f) id
        = some (match eLookup l id with
                | some e => joinE e f
                | none => f)
  | [], id, f, _ => by simp [mergeOne, eLookup]
  | (k, e) :: rest, id, f, hs => by
    rw [mergeOne]
    by_cases hk : id = k
    · rw [if_pos hk]
      subst hk
      simp [eLookup]
    · rw [if_neg hk]
      by_cases hlt : eidLtB id k = true
      · rw [if_pos hlt]
        have hrest : eLookup rest id = none := by
          apply eLookup_eq_none
        -- every key below the head is below (hence distinct from) the tail keys
          intro q hq
          have hkq : eidLtP k q.1 := (List.pairwise_cons.mp hs).1 q hq
          exact eidLtP_ne (eidLtP_trans hlt hkq)
        simp [eLookup, hk, hrest]
      · rw [if_neg hlt]
        simp only [eLookup, if_neg hk]
        exact eLookup_mergeOne_self id f (List.pairwise_cons.mp hs).2

theorem eLookup_mergeOne_ne :
    ∀ {l : List (ElementId × Element)} (id : ElementId) (f : Element) {id' : ElementId},
      id' ≠ id → eLookup (mergeOne l id f) id' = eLookup l id'
  | [], id, f, id', h => by simp [mergeOne, eLookup, h]
  | (k, e) :: rest, id, f, id', h => by
    rw [mergeOne]
    by_cases hk : id = k
    · subst hk
      simp [eLookup, h]
    · rw [if_neg hk]
      by_cases hlt : eidLtB id k = true
      · rw [if_pos hlt]
        simp [eLookup, h]
      · rw [if_neg hlt]
        simp only [eLookup]
        by_cases hk' : id' = k
        · rw [if_pos hk', if_pos hk']
        · rw [if_neg hk', if_neg hk']
          exact eLookup_mergeOne_ne id f h

theorem mergeOne_keys :
    ∀ {l : List (ElementId × Element)} (id : ElementId) (f : Element),
      ∀ q ∈ mergeOne l id f, q.1 = id ∨ q.1 ∈ l.map Prod.fst
  | [], id, f, q, hq => by
    simp [mergeOne] at hq
    simp [hq]
  | (k, e) :: rest, id, f, q, hq => by
    rw [mergeOne] at hq
    by_cases hk : id = k
    · rw [if_pos hk] at hq
      rcases List.mem_cons.mp hq with h | h
      · subst h; right; simp
      · right
        simp only [List.map_cons, List.mem_cons]
        exact Or.inr (List.mem_map_of_mem Prod.fst h)
    · rw [if_neg hk] at hq
      by_cases hlt : eidLtB id k = true
      · rw [if_pos hlt] at hq
        rcases List.mem_cons.mp hq with h | h
        · subst h; left; rfl
        · right
          rcases List.mem_cons.mp h with h' | h'
          · subst h'; simp
          · simp only [List.map_cons, List.mem_cons]
            exact Or.inr (List.mem_map_of_mem Prod.fst h')
      · rw [if_neg hlt] at hq
        rcases List.mem_cons.mp hq with h | h
        · subst h; right; simp
        · rcases mergeOne_keys id f q h with h' | h'
          · exact Or.inl h'
          · right
            simp only [List.map_cons, List.mem_cons]
            exact Or.inr h'

theorem mergeOne_sorted :
    ∀ {l : List (ElementId × Element)} (id : ElementId) (f : Element),
      EKeysSorted l → EKeysSorted (mergeOne l id f)
  | [], id, f, _ => List.pairwise_singleton _ _
  | (k, e) :: rest, id, f, hs => by
    obtain ⟨hhead, htail⟩ := List.pairwise_cons.mp hs
    rw [mergeOne]
    by_cases hk : id = k
    · rw [if_pos hk]
      exact List.pairwise_cons.mpr ⟨hhead, htail⟩
    · rw [if_neg hk]
      by_cases hlt : eidLtB id k = true
      · rw [if_pos hlt]
        refine List.pairwise_cons.mpr ⟨?_, hs⟩
        intro q hq
        rcases List.mem_cons.mp hq with h | h
        · subst h; exact hlt
        · exact eidLtP_trans hlt (hhead q h)
      · rw [if_neg hlt]
        have hki : eidLtP k id := by
          rcases eidLtP_trichotomy id k with h | h | h
          · exact absurd h hlt
          · exact absurd h hk
          · exact h
        refine List.pairwise_cons.mpr ⟨?_, mergeOne_sorted id f htail⟩
        intro q hq
        rcases mergeOne_keys id f q hq with h | h
        · rw [h]; exact hki
        · obtain ⟨p, hp, hpq⟩ := List.mem_map.mp h
          have := hhead p hp
          rw [hpq] at this
          exact this

theorem elMerge_sorted :
    ∀ (b a : List (ElementId × Element)), EKeysSorted a → EKeysSorted (elMerge a b)
  | [], _, ha => ha
  | (k, f) :: rest, a, ha =>
    elMerge_sorted rest (mergeOne a k f) (mergeOne_sorted k f ha)

theorem EKeysSorted.nodup_keys {l : List (ElementId × Element)} (h : EKeysSorted l) :
    (l.map Prod.fst).Nodup :=
  h.map Prod.fst (fun _ _ hpq => eidLtP_ne hpq)

/-- Join of two optional elements, the per-key description of `Rga::merge`. -/
def joinOpt : Option Element → Option Element → Option Element
  | none, none => none
  | some e, none => some e
  | none, some f => some f
  | some e, some f => some (joinE e f)

theorem eLookup_elMerge :
    ∀ (b a : List (ElementId × Element)), EKeysSorted a → (b.map Prod.fst).Nodup →
      ∀ id, eLookup (elMerge a b) id = joinOpt (eLookup a id) (eLookup b id)
  | [], a, _, _, id => by
    cases h : eLookup a id <;> simp [elMerge, eLookup, joinOpt, h]
  | (k, f) :: rest, a, ha, hb, id => by
    have hstep : elMerge a ((k, f) :: rest) = elMerge (mergeOne a k f) rest := rfl
    rw [hstep, eLookup_elMerge rest (mergeOne a k f) (mergeOne_sorted k f ha)
          (List.nodup_cons.mp (by simpa using hb)).2]
    by_cases hk : id = k
    · subst hk
      have hknotin : ¬ id ∈ rest.map Prod.fst := (List.nodup_cons.mp (by simpa using hb)).1
      have hrest : eLookup rest id = none := by
        apply eLookup_eq_none
        intro q hq hEq
        exact hknotin (hEq ▸ List.mem_map_of_mem Prod.fst hq)
      rw [eLookup_mergeOne_self id f ha, hrest]
      cases h : eLookup a id <;> simp [eLookup, joinOpt, h]
    · rw [eLookup_mergeOne_ne k f hk]
      simp [eLookup, hk]

theorem eLookup_some_not_lt_head {k : ElementId} {e : Element}
    {rest : List (ElementId × Element)} {id : ElementId} {x : Element}
    (hs : EKeysSorted ((k, e) :: rest)) (hl : eLookup ((k, e) :: rest) id = some x) :
    ¬ eidLtP id k := by
  rw [eLookup] at hl
  by_cases hk : id = k
  · subst hk
    exact eidLtP_irrefl id
  · rw [if_neg hk] at hl
    have hmem : (id, x) ∈ rest := eLookup_some_mem_pair hl
    have hki : eidLtP k id := (List.pairwise_cons.mp hs).1 (id, x) hmem
    intro hik
    exact eidLtP_irrefl id (eidLtP_trans hik hki)

theorem eLookup_ext :
    ∀ (a b : List (ElementId × Element)), EKeysSorted a → EKeysSorted b →
      (∀ id, eLookup a id = eLookup b id) → a = b
  | [], [], _, _, _ => rfl
  | [], (k', e') :: rest', _, _, h => by
    have := h k'
    simp [eLookup] at this
  | (k, e) :: rest, [], _, _, h => by
    have := h k
    simp [eLookup] at this
  | (k, e) :: rest, (k', e') :: rest', ha, hb, h => by
    have hk : k = k' := by
      have h1 : eLookup ((k', e') :: rest') k = some e := by
        rw [← h k]; simp [eLookup]
      have h2 : eLookup ((k, e) :: rest) k' = some e' := by
        rw [h k']; simp [eLookup]
      have hn1 : ¬ eidLtP k k' := eLookup_some_not_lt_head hb h1
      have hn2 : ¬ eidLtP k' k := eLookup_some_not_lt_head ha h2
      rcases eidLtP_trichotomy k k' with hx | hx | hx
      · exact absurd hx hn1
      · exact hx
      · exact absurd hx hn2
    subst hk
    have he : e = e' := by
      have := h k
      simp [eLookup] at this
      exact this
    subst he
    have htails : ∀ id, eLookup rest id = eLookup rest' id := by
      intro id
      by_cases hk : id = k
      · subst hk
        have hna : eLookup rest id = none := by
          apply eLookup_eq_none
          intro q hq
          exact eidLtP_ne ((List.pairwise_cons.mp ha).1 q hq)
        have hnb : eLookup rest' id = none := by
          apply eLookup_eq_none
          intro q hq
          exact eidLtP_ne ((List.pairwise_cons.mp hb).1 q hq)
        rw [hna, hnb]
      · have := h id
        simpa [eLookup, hk] using this
    rw [eLookup_ext rest rest' (List.pairwise_cons.mp ha).2 (List.pairwise_cons.mp hb).2 htails]

theorem joinVal_idem (a : Bytes) : joinVal a a = a := by
  cases a <;> simp [joinVal]

theorem joinPrev_idem (a : Option ElementId) : joinPrev a a = a := by
  cases a <;> simp [joinPrev]

theorem joinE_idem (e : Element) : joinE e e = e := by
  obtain ⟨i, p, v, d⟩ := e
  simp [joinE, joinVal_idem, joinPrev_idem]

theorem joinVal_assoc (a b c : Bytes) :
    joinVal (joinVal a b) c = joinVal a (joinVal b c) := by
  cases a <;> cases b <;> cases c <;> simp [joinVal]

theorem joinPrev_assoc (a b c : Option ElementId) :
    joinPrev (joinPrev a b) c = joinPrev a (joinPrev b c) := by
  cases a <;> cases b <;> cases c <;> simp [joinPrev]

theorem joinE_assoc (e f g : Element) : joinE (joinE e f) g = joinE e (joinE f g) := by
  obtain ⟨ei, ep, ev, ed⟩ := e
  obtain ⟨fi, fp, fv, fd⟩ := f
  obtain ⟨gi, gp, gv, gd⟩ := g
  simp [joinE, Bool.or_assoc, joinVal_assoc, joinPrev_assoc]

theorem joinVal_comm {a b : Bytes} (h : a = [] ∨ b = [] ∨ a = b) :
    joinVal a b = joinVal b a := by
  rcases h with h | h | h
  · subst h; cases b <;> simp [joinVal]
  · subst h; cases a <;> simp [joinVal]
  · subst h; rfl

theorem joinPrev_comm {a b : Option ElementId} (h : a = none ∨ b = none ∨ a = b) :
    joinPrev a b = joinPrev b a := by
  rcases h with h | h | h
  · subst h; cases b <;> simp [joinPrev]
  · subst h; cases a <;> simp [joinPrev]
  · subst h; rfl

/-- Compatibility of overlapping elements: where both replicas carry a
non-empty value (resp. a some-prev) for the same id, they agree. -/
def RgaCompat (a b : Rga) : Prop :=
  ∀ id e f, eLookup a.elems id = some e → eLookup b.elems id = some f →
    (e.value = [] ∨ f.value = [] ∨ e.value = f.value) ∧
    (e.prev = none ∨ f.prev = none ∨ e.prev = f.prev)

theorem RgaCompat_self (a : Rga) : RgaCompat a a := by
  intro id e f h1 h2
  rw [h1] at h2
  injection h2 with h2
  subst h2
  exact ⟨Or.inr (Or.inr rfl), Or.inr (Or.inr rfl)⟩

/-- Concrete replicas holding the same id with different non-empty
values. -/
def rgaValOne : Rga := ⟨[(⟨1, 1⟩, ⟨⟨1, 1⟩, none, [1], false⟩)]⟩

def rgaValTwo : Rga := ⟨[(⟨1, 1⟩, ⟨⟨1, 1⟩, none, [2], false⟩)]⟩

/-- A replica carrying only a tombstone placeholder for the same id (as
`Rga::delete` installs for a not-yet-known element): empty value, no prev,
deleted.  It is compatible with `rgaValOne` but distinct from it. -/
def rgaTomb : Rga := ⟨[(⟨1, 1⟩, ⟨⟨1, 1⟩, none, [], true⟩)]⟩

theorem rgaCompat_one_tomb : RgaCompat rgaValOne rgaTomb := by
  intro id e f h1 h2
  have hmem := eLookup_some_mem_pair h2
  simp only [rgaTomb, List.mem_singleton] at hmem
  have hf : f = ⟨⟨1, 1⟩, none, [], true⟩ := congrArg Prod.snd hmem
  subst hf
  exact ⟨Or.inr (Or.inl rfl), Or.inr (Or.inl rfl)⟩

/-- Claim C5 (counterexample): merge is not commutative on all RGA values —
when both replicas hold the same id with different non-empty values, each
side keeps its own local value. -/
theorem rga_merge_not_commutative :
    rgaValOne.merge rgaValTwo ≠ rgaValTwo.merge rgaValOne := by decide

/-- Claim C5 (amended): on all well-formed RGA values, merge is idempotent
and associative; it is commutative exactly under the additional condition
that the two replicas are compatible on shared ids (equal values where
both are non-empty, equal prevs where both are some) — but not in general,
as elements with conflicting bodies are resolved in favour of the local
side. -/
theorem rga_merge_semilattice (a b c : Rga)
    (ha : RgaWF a) (hb : RgaWF b) (hc : RgaWF c) :
    a.merge a = a ∧
    (a.merge b).merge c = a.merge (b.merge c) ∧
    (RgaCompat a b → a.merge b = b.merge a) := by
  obtain ⟨has, hai⟩ := ha
  obtain ⟨hbs, hbi⟩ := hb
  obtain ⟨hcs, hci⟩ := hc
  refine ⟨?_, ?_, ?_⟩
  · show Rga.mk (elMerge a.elems a.elems) = a
    have hs : EKeysSorted (elMerge a.elems a.elems) := elMerge_sorted _ _ has
    have hext : ∀ id, eLookup (elMerge a.elems a.elems) id = eLookup a.elems id := by
      intro id
      rw [eLookup_elMerge _ _ has has.nodup_keys]
      cases h : eLookup a.elems id <;> simp [joinOpt, joinE_idem]
    cases a with
    | mk ael => exact congrArg Rga.mk (eLookup_ext _ _ hs has (by simpa using hext))
  · show Rga.mk (elMerge (elMerge a.elems b.elems) c.elems)
        = Rga.mk (elMerge a.elems (elMerge b.elems c.elems))
    have hab_s : EKeysSorted (elMerge a.elems b.elems) := elMerge_sorted _ _ has
    have hbc_s : EKeysSorted (elMerge b.elems c.elems) := elMerge_sorted _ _ hbs
    apply congrArg Rga.mk
    apply eLookup_ext _ _ (elMerge_sorted _ _ hab_s) (elMerge_sorted _ _ has)
    intro id
    rw [eLookup_elMerge _ _ hab_s hcs.nodup_keys,
        eLookup_elMerge _ _ has hbs.nodup_keys,
        eLookup_elMerge _ _ has hbc_s.nodup_keys,
        eLookup_elMerge _ _ hbs hcs.nodup_keys]
    cases eLookup a.elems id <;> cases eLookup b.elems id <;> cases eLookup c.elems id <;>
      simp [joinOpt, joinE_assoc]
  · intro hab
    show Rga.mk (elMerge a.elems b.elems) = Rga.mk (elMerge b.elems a.elems)
    apply congrArg Rga.mk
    apply eLookup_ext _ _ (elMerge_sorted _ _ has) (elMerge_sorted _ _ hbs)
    intro id
    rw [eLookup_elMerge _ _ has hbs.nodup_keys,
        eLookup_elMerge _ _ hbs has.nodup_keys]
    cases hA : eLookup a.elems id <;> cases hB : eLookup b.elems id <;> simp [joinOpt]
    case some.some e f =>
      obtain ⟨hv, hp⟩ := hab id e f hA hB
      have hid : e.id = f.id := by
        rw [eLookup_self_id hai hA, eLookup_self_id hbi hB]
      obtain ⟨ei, ep, ev, ed⟩ := e
      obtain ⟨fi, fp, fv, fd⟩ := f
      simp only at hid
      subst hid
      simp [joinE, Bool.or_comm, joinVal_comm hv, joinPrev_comm hp]

/-- Witness for the amended C5: idempotence and associativity at three
concrete (pairwise distinct) well-formed replicas, and commutativity at
the compatible — but distinct — pair of a value replica and a tombstone
placeholder. -/
theorem rga_merge_semilattice_witness :
    (RgaWF rgaValOne ∧ RgaWF rgaTomb ∧ RgaWF rgaValTwo ∧ RgaCompat rgaValOne rgaTomb) ∧
    (rgaValOne.merge rgaValOne = rgaValOne ∧
     (rgaValOne.merge rgaTomb).merge rgaValTwo
        = rgaValOne.merge (rgaTomb.merge rgaValTwo) ∧
     rgaValOne.merge rgaTomb = rgaTomb.merge rgaValOne) :=
  ⟨⟨⟨by decide, by decide⟩, ⟨by decide, by decide⟩, ⟨by decide, by decide⟩,
    rgaCompat_one_tomb⟩,
   ⟨(rga_merge_semilattice rgaValOne rgaTomb rgaValTwo
       ⟨by decide, by decide⟩ ⟨by decide, by decide⟩ ⟨by decide, by decide⟩).1,
    (rga_merge_semilattice rgaValOne rgaTomb rgaValTwo
       ⟨by decide, by decide⟩ ⟨by decide, by decide⟩ ⟨by decide, by decide⟩).2.1,
    (rga_merge_semilattice rgaValOne rgaTomb rgaValTwo
       ⟨by decide, by decide⟩ ⟨by decide, by decide⟩ ⟨by decide, by decide⟩).2.2
      rgaCompat_one_tomb⟩⟩

/-! ## RGA visible sequence (src/engine/crdt.rs, visible_sequence) -/

/-- Append one id to the group of its parent key (the children map is a
`BTreeMap<Option<ElementId>, Vec<ElementId>>`; only lookups are performed
on it, so the association list order of the groups is irrelevant). -/
def groupAdd : List (Option ElementId × List ElementId) → Option ElementId → ElementId →
    List (Option ElementId × List ElementId)
  | [], key, id => [(key, [id])]
  | (k, ids) :: rest, key, id =>
    if key = k then (k, ids ++ [id]) :: rest
    else (k, ids) :: groupAdd rest key id

/-- Group the element ids by their `prev`. -/
def childGroups (el : List (ElementId × Element)) : List (Option ElementId × List ElementId) :=
  el.foldl (fun acc p => groupAdd acc p.2.prev p.1) []

/-- Sort the children within each group by `ElementId`. -/
def sortGroups (gs : List (Option ElementId × List ElementId)) :
    List (Option ElementId × List ElementId) :=
  gs.map (fun p => (p.1, List.insertionSort eidLeP p.2))

def lookupGroup : List (Option ElementId × List ElementId) → Option ElementId →
    Option (List ElementId)
  | [], _ => none
  | (k, ids) :: rest, key => if key = k then some ids else lookupGroup rest key

/-- The recursive `visit` of `visible_sequence`, emitting values: for each
child of `curr` in order, emit its value if not deleted, then recurse.
The recursion is driven by a fuel; since each id lies in exactly one group
(the one keyed by its unique `prev`), a node is entered at most once, the
recursion depth is bounded by the element count, and the fuel used by
`Rga.visible_sequence` never runs out (the descend lemmas below make this
precise). -/
def visitF : Nat → List (Option ElementId × List ElementId) → List (ElementId × Element) →
    Option ElementId → List Bytes
  | 0, _, _, _ => []
  | fuel + 1, ch, el, curr =>
    match lookupGroup ch curr with
    | none => []
    | some kids =>
      kids.foldl
        (fun out id =>
          match eLookup el id with
          | some e => out ++ ((if e.deleted then [] else [e.value]) ++ visitF fuel ch el (some id))
          | none => out)
        []

/-- The same traversal, emitting the ids of the nodes it enters. -/
def visitN : Nat → List (Option ElementId × List ElementId) → List (ElementId × Element) →
    Option ElementId → List ElementId
  | 0, _, _, _ => []
  | fuel + 1, ch, el, curr =>
    match lookupGroup ch curr with
    | none => []
    | some kids =>
      kids.foldl
        (fun out id =>
          match eLookup el id with
          | some _ => out ++ ([id] ++ visitN fuel ch el (some id))
          | none => out)
        []

def visChildren (r : Rga) : List (Option ElementId × List ElementId) :=
  sortGroups (childGroups r.elems)

/-- `Rga::visible_sequence`. -/
def Rga.visible_sequence (r : Rga) : List Bytes :=
  visitF (r.elems.length + 1) (visChildren r) r.elems none

/-- The ids the traversal of `visible_sequence` enters, in order. -/
def visibleNodes (r : Rga) : List ElementId :=
  visitN (r.elems.length + 1) (visChildren r) r.elems none

/-- What the traversal emits on entering a node. -/
def emitVal (el : List (ElementId × Element)) (id : ElementId) : Option Bytes :=
  match eLookup el id with
  | some e => if e.deleted then none else some e.value
  | none => none

/-! ### Unfolding the kid loop -/

theorem foldl_emit_eq_flatMap {β : Type} (el : List (ElementId × Element))
    (g : ElementId → Element → List β) :
    ∀ (kids : List ElementId) (init : List β),
      kids.foldl
        (fun out id =>
          match eLookup el id with
          | some e => out ++ g id e
          | none => out) init
      = init ++ kids.flatMap (fun id =>
          match eLookup el id with
          | some e => g id e
          | none => [])
  | [], init => by simp
  | id :: rest, init => by
    rw [List.foldl_cons, foldl_emit_eq_flatMap el g rest _, List.flatMap_cons]
    cases h : eLookup el id <;> simp [h]

theorem visitF_succ (fuel : Nat) (ch : List (Option ElementId × List ElementId))
    (el : List (ElementId × Element)) (curr : Option ElementId) :
    visitF (fuel + 1) ch el curr
      = match lookupGroup ch curr with
        | none => []
        | some kids =>
          kids.flatMap (fun id =>
            match eLookup el id with
            | some e => (if e.deleted then [] else [e.value]) ++ visitF fuel ch el (some id)
            | none => []) := by
  rw [visitF]
  cases lookupGroup ch curr with
  | none => rfl
  | some kids =>
    exact foldl_emit_eq_flatMap el
      (fun id e => (if e.deleted then [] else [e.value]) ++ visitF fuel ch el (some id)) kids []

theorem visitN_succ (fuel : Nat) (ch : List (Option ElementId × List ElementId))
    (el : List (ElementId × Element)) (curr : Option ElementId) :
    visitN (fuel + 1) ch el curr
      = match lookupGroup ch curr with
        | none => []
        | some kids =>
          kids.flatMap (fun id =>
            match eLookup el id with
            | some _ => [id] ++ visitN fuel ch el (some id)
            | none => []) := by
  rw [visitN]
  cases lookupGroup ch curr with
  | none => rfl
  | some kids =>
    exact foldl_emit_eq_flatMap el
      (fun id _ => [id] ++ visitN fuel ch el (some id)) kids []

theorem filterMap_flatMap {α β γ : Type} (h : β → Option γ) (g : α → List β) :
    ∀ (xs : List α), (xs.flatMap g).filterMap h = xs.flatMap (fun x => (g x).filterMap h)
  | [] => rfl
  | x :: rest => by
    rw [List.flatMap_cons, List.filterMap_append, List.flatMap_cons,
        filterMap_flatMap h g rest]

theorem flatMap_ext {α β : Type} {f g : α → List β} :
    ∀ {xs : List α}, (∀ x ∈ xs, f x = g x) → xs.flatMap f = xs.flatMap g
  | [], _ => rfl
  | x :: rest, h => by
    rw [List.flatMap_cons, List.flatMap_cons, h x (List.mem_cons_self _ _),
        flatMap_ext fun y hy => h y (List.mem_cons_of_mem _ hy)]

/-- The value trace is the node trace filtered through the emission rule:
the traversal emits exactly the values of the non-deleted nodes it enters,
in traversal order. -/
theorem visitF_eq_filterMap :
    ∀ (fuel : Nat) (ch : List (Option ElementId × List ElementId))
      (el : List (ElementId × Element)) (curr : Option ElementId),
      visitF fuel ch el curr = (visitN fuel ch el curr).filterMap (emitVal el)
  | 0, _, _, _ => rfl
  | fuel + 1, ch, el, curr => by
    rw [visitF_succ, visitN_succ]
    cases lookupGroup ch curr with
    | none => rfl
    | some kids =>
      simp only []
      rw [filterMap_flatMap]
      apply flatMap_ext
      intro id _
      cases h : eLookup el id with
      | none => simp
      | some e =>
        rw [List.filterMap_append, visitF_eq_filterMap fuel ch el (some id)]
        have hsingle : List.filterMap (emitVal el) [id]
            = if e.deleted then [] else [e.value] := by
          simp [List.filterMap, emitVal, h]
          cases e.deleted <;> simp
        rw [hsingle]

/-! ### The children map is complete -/

/-- `id` lies in the group keyed by `key`. -/
def GMem (g : List (Option ElementId × List ElementId)) (key : Option ElementId)
    (id : ElementId) : Prop :=
  ∃ kids, lookupGroup g key = some kids ∧ id ∈ kids

theorem lookupGroup_groupAdd_self :
    ∀ (g : List (Option ElementId × List ElementId)) (key : Option ElementId) (id : ElementId),
      lookupGroup (groupAdd g key id) key = some ((lookupGroup g key).getD [] ++ [id])
  | [], key, id => by simp [groupAdd, lookupGroup]
  | (k, ids) :: rest, key, id => by
    rw [groupAdd]
    by_cases hk : key = k
    · rw [if_pos hk]
      simp [lookupGroup, hk]
    · rw [if_neg hk]
      simp [lookupGroup, hk]
      exact lookupGroup_groupAdd_self rest key id

theorem lookupGroup_groupAdd_ne :
    ∀ (g : List (Option ElementId × List ElementId)) {key key' : Option ElementId}
      (id : ElementId), key' ≠ key →
      lookupGroup (groupAdd g key id) key' = lookupGroup g key'
  | [], key, key', id, h => by simp [groupAdd, lookupGroup, h]
  | (k, ids) :: rest, key, key', id, h => by
    rw [groupAdd]
    by_cases hk : key = k
    · subst hk
      simp [lookupGroup, h]
    · rw [if_neg hk]
      rw [lookupGroup, lookupGroup]
      by_cases hk' : key' = k
      · rw [if_pos hk', if_pos hk']
      · rw [if_neg hk', if_neg hk']
        exact lookupGroup_groupAdd_ne rest id h

theorem gmem_groupAdd_self (g : List (Option ElementId × List ElementId))
    (key : Option ElementId) (id : ElementId) : GMem (groupAdd g key id) key id := by
  refine ⟨(lookupGroup g key).getD [] ++ [id], lookupGroup_groupAdd_self g key id, ?_⟩
  simp

theorem gmem_groupAdd_mono {g : List (Option ElementId × List ElementId)}
    {key : Option ElementId} {id : ElementId} (key' : Option ElementId) (id' : ElementId)
    (h : GMem g key id) : GMem (groupAdd g key' id') key id := by
  obtain ⟨kids, hl, hm⟩ := h
  by_cases hk : key = key'
  · subst hk
    refine ⟨(lookupGroup g key).getD [] ++ [id'], lookupGroup_groupAdd_self g key id', ?_⟩
    rw [hl]
    simp [hm]
  · exact ⟨kids, by rw [lookupGroup_groupAdd_ne g id' hk]; exact hl, hm⟩

theorem gmem_foldl_mono {key : Option ElementId} {id : ElementId} :
    ∀ (pairs : List (ElementId × Element)) (acc : List (Option ElementId × List ElementId)),
      GMem acc key id →
      GMem (pairs.foldl (fun acc p => groupAdd acc p.2.prev p.1) acc) key id
  | [], _, h => h
  | p :: rest, acc, h =>
    gmem_foldl_mono rest (groupAdd acc p.2.prev p.1) (gmem_groupAdd_mono p.2.prev p.1 h)

theorem gmem_foldl_of_mem :
    ∀ (pairs : List (ElementId × Element)) (acc : List (Option ElementId × List ElementId))
      {id : ElementId} {e : Element}, (id, e) ∈ pairs →
      GMem (pairs.foldl (fun acc p => groupAdd acc p.2.prev p.1) acc) e.prev id
  | [], _, _, _, h => absurd h (List.not_mem_nil _)
  | p :: rest, acc, id, e, h => by
    rcases List.mem_cons.mp h with h' | h'
    · rw [List.foldl_cons, ← h']
      exact gmem_foldl_mono rest _ (gmem_groupAdd_self acc e.prev id)
    · rw [List.foldl_cons]
      exact gmem_foldl_of_mem rest _ h'

theorem gmem_childGroups {el : List (ElementId × Element)} {id : ElementId} {e : Element}
    (h : (id, e) ∈ el) : GMem (childGroups el) e.prev id :=
  gmem_foldl_of_mem el [] h

theorem lookupGroup_sortGroups :
    ∀ (g : List (Option ElementId × List ElementId)) (key : Option ElementId),
      lookupGroup (sortGroups g) key
        = (lookupGroup g key).map (List.insertionSort eidLeP)
  | [], _ => rfl
  | (k, ids) :: rest, key => by
    rw [sortGroups, List.map_cons]
    by_cases hk : key = k
    · simp [lookupGroup, hk]
    · simp only [lookupGroup, if_neg hk]
      exact lookupGroup_sortGroups rest key

theorem gmem_sortGroups {g : List (Option ElementId × List ElementId)}
    {key : Option ElementId} {id : ElementId} (h : GMem g key id) :
    GMem (sortGroups g) key id := by
  obtain ⟨kids, hl, hm⟩ := h
  refine ⟨List.insertionSort eidLeP kids, ?_, ?_⟩
  · rw [lookupGroup_sortGroups, hl]
    rfl
  · exact ((List.perm_insertionSort eidLeP kids).mem_iff).mpr hm

/-- Completeness of the (sorted) children map: every element's id lies in
the group of its `prev`. -/
theorem mem_visChildren {r : Rga} {id : ElementId} {e : Element}
    (h : eLookup r.elems id = some e) : GMem (visChildren r) e.prev id :=
  gmem_sortGroups (gmem_childGroups (eLookup_some_mem_pair h))

/-! ### Reachability through prev anchors -/

/-- A position is reachable when its prev chain runs back to the sentinel
root through elements present in the map. -/
inductive Reaches (el : List (ElementId × Element)) : Option ElementId → Prop
  | root : Reaches el none
  | step (id : ElementId) (e : Element) :
      eLookup el id = some e → Reaches el e.prev → Reaches el (some id)

/-- The explicit prev chain from a position back to the root, newest
first. -/
inductive ChainTo (el : List (ElementId × Element)) : List ElementId → Option ElementId → Prop
  | root : ChainTo el [] none
  | step (id : ElementId) (e : Element) (l : List ElementId) :
      eLookup el id = some e → ChainTo el l e.prev → ChainTo el (id :: l) (some id)

theorem reaches_chain {el : List (ElementId × Element)} {c : Option ElementId}
    (h : Reaches el c) : ∃ l, ChainTo el l c := by
  induction h with
  | root => exact ⟨[], ChainTo.root⟩
  | step id e hl _ ih =>
    obtain ⟨l, hc⟩ := ih
    exact ⟨id :: l, ChainTo.step id e l hl hc⟩

/-- Prev pointers are functional, so the chain from a position is unique. -/
theorem chain_unique {el : List (ElementId × Element)} {l1 : List ElementId}
    {c : Option ElementId} (h1 : ChainTo el l1 c) :
    ∀ {l2 : List ElementId}, ChainTo el l2 c → l1 = l2 := by
  induction h1 with
  | root =>
    intro l2 h2
    cases h2
    rfl
  | step id e l hl _ ih =>
    intro l2 h2
    cases h2 with
    | step _ e' l' hl' hc' =>
      rw [hl] at hl'
      injection hl' with he
      subst he
      rw [ih hc']

theorem chain_suffix {el : List (ElementId × Element)} {l : List ElementId}
    {c : Option ElementId} (h : ChainTo el l c) :
    ∀ id ∈ l, ∃ l', l' <:+ l ∧ ChainTo el l' (some id) := by
  induction h with
  | root =>
    intro id hid
    exact absurd hid (List.not_mem_nil _)
  | step id0 e l0 hl hc ih =>
    intro id hid
    rcases List.mem_cons.mp hid with h' | h'
    · subst h'
      exact ⟨id :: l0, List.suffix_refl _, ChainTo.step id e l0 hl hc⟩
    · obtain ⟨l', hsuf, hch⟩ := ih id h'
      exact ⟨l', hsuf.trans (List.suffix_cons id0 l0), hch⟩

/-- A chain cannot revisit a node: a repeat would make it its own proper
suffix. -/
theorem chain_nodup {el : List (ElementId × Element)} {l : List ElementId}
    {c : Option ElementId} (h : ChainTo el l c) : l.Nodup := by
  induction h with
  | root => exact List.nodup_nil
  | step id e l0 hl hc ih =>
    refine List.nodup_cons.mpr ⟨?_, ih⟩
    intro hmem
    obtain ⟨l', hsuf, hch⟩ := chain_suffix hc id hmem
    have heq : id :: l0 = l' := chain_unique (ChainTo.step id e l0 hl hc) hch
    have hlen := hsuf.length_le
    rw [← heq] at hlen
    simp [List.length_cons] at hlen

theorem chain_subset_keys {el : List (ElementId × Element)} {l : List ElementId}
    {c : Option ElementId} (h : ChainTo el l c) : ∀ id ∈ l, id ∈ el.map Prod.fst := by
  induction h with
  | root =>
    intro id hid
    exact absurd hid (List.not_mem_nil _)
  | step id0 e l0 hl _ ih =>
    intro id hid
    rcases List.mem_cons.mp hid with h' | h'
    · subst h'
      exact List.mem_map_of_mem Prod.fst (eLookup_some_mem_pair hl)
    · exact ih id h'

theorem chain_length_le {el : List (ElementId × Element)} {l : List ElementId}
    {c : Option ElementId} (h : ChainTo el l c) : l.length ≤ el.length := by
  have hsub : l ⊆ el.map Prod.fst := fun id hid => chain_subset_keys h id hid
  have := ((chain_nodup h).subperm hsub).length_le
  simpa using this

/-! ### Fuel never runs out along a reachable chain -/

theorem visitF_sub_parent (fuel : Nat) (ch : List (Option ElementId × List ElementId))
    (el : List (ElementId × Element)) {id : ElementId} {e : Element}
    (hl : eLookup el id = some e) (hg : GMem ch e.prev id) :
    ∀ x ∈ visitF fuel ch el (some id), x ∈ visitF (fuel + 1) ch el e.prev := by
  intro x hx
  obtain ⟨kids, hlg, hmem⟩ := hg
  rw [visitF_succ, hlg]
  simp only []
  apply List.mem_flatMap.mpr
  refine ⟨id, hmem, ?_⟩
  rw [hl]
  simp [hx]

theorem visitF_emits (fuel : Nat) (ch : List (Option ElementId × List ElementId))
    (el : List (ElementId × Element)) {id : ElementId} {e : Element}
    (hl : eLookup el id = some e) (hdel : e.deleted = false) (hg : GMem ch e.prev id) :
    e.value ∈ visitF (fuel + 1) ch el e.prev := by
  obtain ⟨kids, hlg, hmem⟩ := hg
  rw [visitF_succ, hlg]
  simp only []
  apply List.mem_flatMap.mpr
  refine ⟨id, hmem, ?_⟩
  rw [hl]
  show e.value ∈ (if e.deleted = true then [] else [e.value]) ++ visitF fuel ch el (some id)
  rw [hdel]
  simp

theorem visitF_descend {el : List (ElementId × Element)}
    {ch : List (Option ElementId × List ElementId)}
    (hch : ∀ {id : ElementId} {e : Element}, eLookup el id = some e → GMem ch e.prev id)
    {l : List ElementId} {c : Option ElementId} (h : ChainTo el l c) :
    ∀ {fuel : Nat}, l.length < fuel →
      ∀ x ∈ visitF (fuel - l.length) ch el c, x ∈ visitF fuel ch el none := by
  induction h with
  | root =>
    intro fuel _ x hx
    simpa using hx
  | step id e l0 hl hc ih =>
    intro fuel hlen x hx
    simp only [List.length_cons] at hlen hx
    have harith : fuel - (l0.length + 1) + 1 = fuel - l0.length := by omega
    have hstep := visitF_sub_parent (fuel - (l0.length + 1)) ch el hl (hch hl) x hx
    rw [harith] at hstep
    exact ih (by omega) x hstep

/-- Claim C6 (amended, main theorem): the visible sequence is exactly the
node trace of the deterministic traversal filtered to non-deleted
elements (so the value of a tombstoned element is never emitted and
emission order is traversal order); and every non-deleted element whose
prev refers to a deleted element still appears — its value is emitted —
provided that tombstoned parent is reachable from the sentinel root
through its own prev chain. -/
theorem rga_visible_sequence_correct (r : Rga) :
    r.visible_sequence = (visibleNodes r).filterMap (emitVal r.elems) ∧
    (∀ v ∈ r.visible_sequence, ∃ id e,
        eLookup r.elems id = some e ∧ e.deleted = false ∧ v = e.value) ∧
    (∀ id e p ep, eLookup r.elems id = some e → e.deleted = false → e.prev = some p →
        eLookup r.elems p = some ep → ep.deleted = true → Reaches r.elems (some p) →
        e.value ∈ r.visible_sequence) := by
  have heq : r.visible_sequence = (visibleNodes r).filterMap (emitVal r.elems) :=
    visitF_eq_filterMap (r.elems.length + 1) (visChildren r) r.elems none
  refine ⟨heq, ?_, ?_⟩
  · intro v hv
    rw [heq] at hv
    obtain ⟨id, _, hemit⟩ := List.mem_filterMap.mp hv
    rw [emitVal] at hemit
    cases hl : eLookup r.elems id with
    | none =>
      rw [hl] at hemit
      simp at hemit
    | some e =>
      rw [hl] at hemit
      have hemit' : (if e.deleted = true then none else some e.value) = some v := hemit
      cases hd : e.deleted with
      | true =>
        rw [hd] at hemit'
        simp at hemit'
      | false =>
        rw [hd] at hemit'
        injection hemit' with hemit'
        exact ⟨id, e, hl, hd, hemit'.symm⟩
  · intro id e p ep hl hdel hprev hlp hdp hreach
    have hreach' : Reaches r.elems (some id) :=
      Reaches.step id e hl (hprev ▸ hreach)
    obtain ⟨lc, hchain⟩ := reaches_chain hreach'
    cases hchain with
    | step _ e' l0 hl' hc0 =>
      rw [hl] at hl'
      injection hl' with he'
      subst he'
      have hlen : l0.length + 1 ≤ r.elems.length :=
        List.length_cons id l0 ▸ chain_length_le (ChainTo.step id e l0 hl hc0)
      have hfuel : (r.elems.length + 1) - l0.length = ((r.elems.length - l0.length)) + 1 := by
        omega
      have hemit : e.value ∈ visitF ((r.elems.length + 1) - l0.length) (visChildren r)
          r.elems e.prev := by
        rw [hfuel]
        exact visitF_emits _ _ _ hl hdel (mem_visChildren hl)
      exact visitF_descend (fun hx => mem_visChildren hx) hc0 (by omega) e.value hemit

/-- A concrete RGA in which the tombstoned element `(5,5)` anchors itself
(its prev is its own id, constructible through the public
`rga_insert_after`), so it is unreachable from the root, and its
non-deleted child `(5,6)` never appears. -/
def rgaOrphan : Rga :=
  ⟨[(⟨5, 5⟩, ⟨⟨5, 5⟩, some ⟨5, 5⟩, [65], true⟩),
    (⟨5, 6⟩, ⟨⟨5, 6⟩, some ⟨5, 5⟩, [66], false⟩)]⟩

/-- Claim C6 (counterexample): `(5,6)` is a non-deleted element whose prev
refers to the deleted element `(5,5)` present in the map, yet
`visible_sequence` is empty — the element does not appear, because its
tombstoned parent is not reachable from the root. -/
theorem rga_visible_orphan_counterexample :
    eLookup rgaOrphan.elems ⟨5, 6⟩ = some ⟨⟨5, 6⟩, some ⟨5, 5⟩, [66], false⟩ ∧
    eLookup rgaOrphan.elems ⟨5, 5⟩ = some ⟨⟨5, 5⟩, some ⟨5, 5⟩, [65], true⟩ ∧
    rgaOrphan.visible_sequence = [] := by decide

/-- The spec's S6 scenario: root `A`, deleted child `B`, and `C` inserted
after the tombstoned `B`. -/
def rgaS6 : Rga :=
  ⟨[(⟨1, 1⟩, ⟨⟨1, 1⟩, none, [65], false⟩),
    (⟨1, 2⟩, ⟨⟨1, 2⟩, some ⟨1, 1⟩, [66], true⟩),
    (⟨1, 3⟩, ⟨⟨1, 3⟩, some ⟨1, 2⟩, [67], false⟩)]⟩

/-- Witness for the amended C6: `C = (1,3)` survives its tombstoned but
reachable parent `B = (1,2)` and is emitted. -/
theorem rga_visible_sequence_correct_witness :
    (eLookup rgaS6.elems ⟨1, 3⟩ = some ⟨⟨1, 3⟩, some ⟨1, 2⟩, [67], false⟩ ∧
     eLookup rgaS6.elems ⟨1, 2⟩ = some ⟨⟨1, 2⟩, some ⟨1, 1⟩, [66], true⟩) ∧
    [67] ∈ rgaS6.visible_sequence :=
  ⟨⟨by decide, by decide⟩,
   (rga_visible_sequence_correct rgaS6).2.2 ⟨1, 3⟩ ⟨⟨1, 3⟩, some ⟨1, 2⟩, [67], false⟩
     ⟨1, 2⟩ ⟨⟨1, 2⟩, some ⟨1, 1⟩, [66], true⟩
     (by decide) (by decide) (by decide) (by decide) (by decide)
     (Reaches.step ⟨1, 2⟩ ⟨⟨1, 2⟩, some ⟨1, 1⟩, [66], true⟩ (by decide)
       (Reaches.step ⟨1, 1⟩ ⟨⟨1, 1⟩, none, [65], false⟩ (by decide) Reaches.root))⟩

end Zynk
